import Mathlib

/-!
Shallow embedding of `egs/wsj/s5/steps/data/reverberate_data_dir.py`.

The script synthesizes a corrupted (reverberated/noisy) copy of a speech
corpus.  Python floats are modelled by exact rationals (`ℚ`); the global
`random` module is modelled by an explicit stream of draws (`RNG`) threaded
through every function in the exact order the source consumes them;
fallible code (Python exceptions: `assert False`, `ValueError`,
`ZeroDivisionError`, `IndexError`) returns `Option`, with `none` marking the
raised exception.  Python dictionaries are modelled as association lists
(or key list + lookup function where all lookups are of present keys).
-/

/-- Model of the process-wide pseudo-random generator (`random` module).
`reals` is the stream of successive outputs of `random.random()` (each lies
in `[0,1)` for the real generator; theorems take that as a hypothesis);
`ints` is an auxiliary stream feeding `random.randint`.  `ridx` / `iidx`
are the positions of the next unconsumed draw. -/
structure RNG where
  reals : ℕ → ℚ
  ints : ℕ → ℕ
  ridx : ℕ
  iidx : ℕ

/-- `random.random()`: consume one draw from the real stream. -/
def randomReal (g : RNG) : ℚ × RNG :=
  (g.reals g.ridx, ⟨g.reals, g.ints, g.ridx + 1, g.iidx⟩)

/-- `random.randint(a, b)` (Python 2 `randrange(a, b+1)`): an integer in
`[a, b]`; raises `ValueError: empty range for randrange()` when `a > b`,
modelled by `none`. -/
def randint (a b : ℤ) (g : RNG) : Option (ℤ × RNG) :=
  if a > b then none
  else some (a + (g.ints g.iidx : ℤ) % (b - a + 1), ⟨g.reals, g.ints, g.ridx, g.iidx + 1⟩)

/-- A record of the RIR catalog (`ParseRirList`), after probability
smoothing, restricted to the fields the algorithms read.  `probability`
is the smoothed selection weight. -/
structure Rir where
  rir_id : String
  room_id : String
  probability : ℚ
  rir_file_location : String
deriving DecidableEq

/-- A record of the noise catalog (`ParseNoiseList`), after probability
smoothing.  `rir_id` is `some` exactly for isotropic noises (the parser
enforces this). -/
structure Noise where
  noise_id : String
  noise_type : String
  bg_fg_type : String
  rir_id : Option String
  probability : ℚ
  noise_file_location : String
deriving DecidableEq

/-- The ad-hoc room object built by `MakeRoomDict`: a local RIR list and
the probability of the room. -/
structure Room where
  rir_list : List Rir
  probability : ℚ
deriving DecidableEq

/-- The accumulation loop of `PickItemWithProbability` (lines 105-110):
return the first item whose cumulative probability reaches the drawn `p`;
falling off the end is the `assert False` branch, modelled by `none`. -/
def pickLoop {α : Type} (prob : α → ℚ) : List α → ℚ → ℚ → Option α
  | [], _, _ => none
  | item :: rest, accumulate_p, p =>
      if accumulate_p + prob item ≥ p then some item
      else pickLoop prob rest (accumulate_p + prob item) p

/-- `PickItemWithProbability` (lines 98-110) on a list collection: draw
`p = random.uniform(0, total_p)` (i.e. `total_p * random.random()`) and run
the accumulation loop from `accumulate_p = 0`.  The dictionary case of the
source (`plist = list(set(x.values()))`) is modelled by the caller passing
the enumeration of the dictionary values that CPython's `set` happens to
produce. -/
def PickItemWithProbability {α : Type} (prob : α → ℚ) (plist : List α) (g : RNG) :
    Option (α × RNG) :=
  let total_p := (plist.map prob).sum
  let u := (randomReal g).1
  let g2 := (randomReal g).2
  match pickLoop prob plist 0 (u * total_p) with
  | some item => some (item, g2)
  | none => none

/-- `FilterIsotropicNoiseList` (lines 146-152): keep the isotropic noises
whose associated RIR identifier equals the given one. -/
def FilterIsotropicNoiseList (iso_noise_list : List Noise) (rir_id : String) : List Noise :=
  iso_noise_list.filter (fun noise => noise.rir_id == some rir_id)

/-- `SmoothProbabilityDistribution` (lines 362-377), expressed on the
`probability` fields of the items (the source updates that field in
place).  `none` input entries are the items whose `probability` attribute
is `None`.  The result is `none` when the source raises
`ZeroDivisionError`: on an empty list (`1 / float(0)`), or when the
blended weights sum to zero (`item.probability / sum_p`). -/
def blendWeight (smoothing_weight uniform_probability : ℚ) : Option ℚ → ℚ
  | none => uniform_probability
  | some r => (1 - smoothing_weight) * r + smoothing_weight * uniform_probability

def SmoothProbabilityDistribution (smoothing_weight : ℚ) (ws : List (Option ℚ)) :
    Option (List ℚ) :=
  if ws.length = 0 then none
  else
    let blended := ws.map (blendWeight smoothing_weight (1 / (ws.length : ℚ)))
    if blended.sum = 0 then none
    else some (blended.map (fun w => w / blended.sum))

/-- `list_cyclic_iterator` state (lines 83-92): the (already shuffled)
value list and the cursor `list_index`.  SNR values are numeric, hence
`ℚ`. -/
structure list_cyclic_iterator where
  list : List ℚ
  list_index : ℕ
deriving DecidableEq

/-- `list_cyclic_iterator.next` (lines 89-92): return the element at the
cursor, advance the cursor by one modulo the length.  `none` models the
`IndexError` raised on an empty list. -/
def list_cyclic_iterator.next (s : list_cyclic_iterator) :
    Option (ℚ × list_cyclic_iterator) :=
  match s.list.get? s.list_index with
  | some item => some (item, ⟨s.list, (s.list_index + 1) % s.list.length⟩)
  | none => none

/-- Swap the entries of a list at two positions (used by the shuffle). -/
def swapAt2 (l : List ℚ) (i j : ℕ) : List ℚ :=
  let a := l.getD i 0
  let b := l.getD j 0
  (l.set i b).set j a

/-- The Fisher-Yates loop of Python 2's `random.shuffle`: for
`i = n-1, ..., 1` draw `j = int(random.random() * (i+1))` and swap
positions `i` and `j`.  The first argument is the loop counter `i`. -/
def shuffleAux : ℕ → List ℚ → RNG → List ℚ × RNG
  | 0, l, g => (l, g)
  | m + 1, l, g =>
      let u := (randomReal g).1
      let g2 := (randomReal g).2
      let j := (⌊u * ((m : ℚ) + 2)⌋).toNat
      shuffleAux m (swapAt2 l (m + 1) j) g2

/-- `random.shuffle` as invoked by the `list_cyclic_iterator` constructor
(line 87). -/
def pyShuffle (l : List ℚ) (g : RNG) : List ℚ × RNG :=
  shuffleAux (l.length - 1) l g

/-- The `list_cyclic_iterator` constructor (lines 84-87): shuffle the list
once with the global generator, start the cursor at 0. -/
def list_cyclic_iterator.init (l : List ℚ) (g : RNG) : list_cyclic_iterator × RNG :=
  let p := pyShuffle l g
  (⟨p.1, 0⟩, p.2)

/-- `GetNewId` (lines 237-243); `pfx` models the `prefix` argument. -/
def GetNewId (id : String) (pfx : Option String) (copy : ℕ) : String :=
  match pfx with
  | some p => p ++ toString copy ++ "_" ++ id
  | none => id

/-- Python's `str.split()` on spaces, dropping empty fields (accumulator
holds the current field reversed). -/
def pySplitAux : List Char → List Char → List (List Char)
  | [], acc => if acc.isEmpty then [] else [acc.reverse]
  | c :: cs, acc =>
      if c = ' ' then
        if acc.isEmpty then pySplitAux cs [] else acc.reverse :: pySplitAux cs []
      else pySplitAux cs (c :: acc)

/-- Python's `wav_original_pipe.split()`. -/
def pySplit (s : String) : List String :=
  (pySplitAux s.data []).map (fun l => ⟨l⟩)

/-- Lines 273-275 of `GenerateReverberatedWavScp`: a single-token wav.scp
entry is a bare file and is wrapped as a `cat` pipe. -/
def NormalizeWavPipe (wav_original_pipe : String) : String :=
  if (pySplit wav_original_pipe).length = 1 then "cat " ++ wav_original_pipe ++ " |"
  else wav_original_pipe

/-- Python 2 `round(x, 2)`: nearest hundredth, ties away from zero. -/
def pyRound2 (x : ℚ) : ℚ :=
  if 0 ≤ x then ((⌊x * 100 + 1 / 2⌋ : ℤ) : ℚ) / 100
  else -(((⌊-x * 100 + 1 / 2⌋ : ℤ) : ℚ) / 100)

/-- The `noise_addition_descriptor` dictionary of lines 195-197: three
parallel lists.  The field `noise_io_list` models the source's `noise_io`
entry (a list of pipeline fragments). -/
structure NoiseAdditionDescriptor where
  noise_io_list : List String
  start_times : List ℚ
  snrs : List ℚ
deriving DecidableEq

/-- A single quote character, used by the option rendering. -/
def sglq : String := "\x27"

/-- The loop body of `AddPointSourceNoise` (lines 165-178), iterated
`count` times: pick a point-source noise and an RIR of the room, then
append one pipeline fragment, one start time and one SNR, extending
background noises to the whole recording and placing foreground noises at
a random offset. -/
def psLoop (room : Room) (pointsource_noise_list : List Noise) (speech_dur : ℚ) :
    ℕ → NoiseAdditionDescriptor → list_cyclic_iterator → list_cyclic_iterator → RNG →
    Option (NoiseAdditionDescriptor × list_cyclic_iterator × list_cyclic_iterator × RNG)
  | 0, d, fg, bg, g => some (d, fg, bg, g)
  | k + 1, d, fg, bg, g =>
      match PickItemWithProbability Noise.probability pointsource_noise_list g with
      | none => none
      | some (noise, g1) =>
        match PickItemWithProbability Rir.probability room.rir_list g1 with
        | none => none
        | some (noise_rir, g2) =>
          if noise.bg_fg_type = "background" then
            match bg.next with
            | none => none
            | some (snr, bg2) =>
                psLoop room pointsource_noise_list speech_dur k
                  ⟨d.noise_io_list ++
                     ["wav-reverberate --duration=" ++ toString speech_dur ++
                      " --impulse-response=" ++ noise_rir.rir_file_location ++ " " ++
                      noise.noise_file_location ++ " - |"],
                   d.start_times ++ [0], d.snrs ++ [snr]⟩ fg bg2 g2
          else
            let u := (randomReal g2).1
            let g3 := (randomReal g2).2
            match fg.next with
            | none => none
            | some (snr, fg2) =>
                psLoop room pointsource_noise_list speech_dur k
                  ⟨d.noise_io_list ++
                     ["wav-reverberate --impulse-response=" ++
                      noise_rir.rir_file_location ++ " " ++
                      noise.noise_file_location ++ " - |"],
                   d.start_times ++ [pyRound2 (u * speech_dur)], d.snrs ++ [snr]⟩ fg2 bg g3

/-- `AddPointSourceNoise` (lines 155-180).  When the point-source list is
non-empty and the probability draw succeeds, `random.randint(1,
max_noises_recording)` chooses how many noises to add; `randint` raises
`ValueError` (here `none`) when `max_noises_recording < 1`. -/
def AddPointSourceNoise (noise_addition_descriptor : NoiseAdditionDescriptor)
    (room : Room) (pointsource_noise_list : List Noise)
    (pointsource_noise_addition_probability : ℚ)
    (foreground_snrs background_snrs : list_cyclic_iterator)
    (speech_dur : ℚ) (max_noises_recording : ℤ) (g : RNG) :
    Option (NoiseAdditionDescriptor × list_cyclic_iterator × list_cyclic_iterator × RNG) :=
  if pointsource_noise_list.length > 0 then
    let u := (randomReal g).1
    let g1 := (randomReal g).2
    if u < pointsource_noise_addition_probability then
      match randint 1 max_noises_recording g1 with
      | none => none
      | some (count, g2) =>
          psLoop room pointsource_noise_list speech_dur count.toNat
            noise_addition_descriptor foreground_snrs background_snrs g2
    else some (noise_addition_descriptor, foreground_snrs, background_snrs, g1)
  else some (noise_addition_descriptor, foreground_snrs, background_snrs, g)

/-- Lines 228-231: render the accumulated noise lists into the option
string (only when at least one noise was recorded). -/
def renderOpts (reverberate_opts : String) (d : NoiseAdditionDescriptor) : String :=
  if d.noise_io_list.length > 0 then
    reverberate_opts ++
      "--additive-signals=" ++ sglq ++ String.intercalate "," d.noise_io_list ++ sglq ++ " " ++
      "--start-times=" ++ sglq ++
        String.intercalate "," (d.start_times.map (fun x => toString x)) ++ sglq ++ " " ++
      "--snrs=" ++ sglq ++ String.intercalate "," (d.snrs.map (fun x => toString x)) ++ sglq ++ " "
  else reverberate_opts

/-- The result of `GenerateReverberationOpts`: the option string the source
returns, together with the final descriptor (the state inspected by the
assertions of lines 226-227) and the threaded iterator / generator
states. -/
structure GenOut where
  reverberate_opts : String
  noise_addition_descriptor : NoiseAdditionDescriptor
  foreground_snrs : list_cyclic_iterator
  background_snrs : list_cyclic_iterator
  g : RNG

/-- `GenerateReverberationOpts` (lines 183-233): pick a room, pick the
speech RIR in it, draw whether to reverberate the speech, optionally add
the isotropic noise associated with the speech RIR, then add point-source
noises.  `room_vals` is the enumeration of `list(set(room_dict.values()))`
that CPython produces for this run (its order is not fixed by the seed). -/
def GenerateReverberationOpts (room_vals : List Room)
    (pointsource_noise_list iso_noise_list : List Noise)
    (foreground_snrs background_snrs : list_cyclic_iterator)
    (speech_rvb_probability isotropic_noise_addition_probability
      pointsource_noise_addition_probability : ℚ)
    (speech_dur : ℚ) (max_noises_recording : ℤ) (g : RNG) : Option GenOut :=
  match PickItemWithProbability Room.probability room_vals g with
  | none => none
  | some (room, g1) =>
    match PickItemWithProbability Rir.probability room.rir_list g1 with
    | none => none
    | some (speech_rir, g2) =>
      let u := (randomReal g2).1
      let g3 := (randomReal g2).2
      let reverberate_opts :=
        if u < speech_rvb_probability then
          "--impulse-response=" ++ speech_rir.rir_file_location ++ " "
        else ""
      let rir_iso_noise_list := FilterIsotropicNoiseList iso_noise_list speech_rir.rir_id
      let step4 : Option (NoiseAdditionDescriptor × list_cyclic_iterator × RNG) :=
        if rir_iso_noise_list.length > 0 then
          let u2 := (randomReal g3).1
          let g4 := (randomReal g3).2
          if u2 < isotropic_noise_addition_probability then
            match PickItemWithProbability Noise.probability rir_iso_noise_list g4 with
            | none => none
            | some (isotropic_noise, g5) =>
              match background_snrs.next with
              | none => none
              | some (snr, bg2) =>
                some (⟨["wav-reverberate --duration=" ++ toString speech_dur ++ " " ++
                        isotropic_noise.noise_file_location ++ " - |"], [0], [snr]⟩, bg2, g5)
          else some (⟨[], [], []⟩, background_snrs, g4)
        else some (⟨[], [], []⟩, background_snrs, g3)
      match step4 with
      | none => none
      | some (d1, bg1, g6) =>
        match AddPointSourceNoise d1 room pointsource_noise_list
            pointsource_noise_addition_probability foreground_snrs bg1 speech_dur
            max_noises_recording g6 with
        | none => none
        | some (d2, fg2, bg2, g7) =>
            some ⟨renderOpts reverberate_opts d2, d2, fg2, bg2, g7⟩

/-- The inner (per-recording) loop of `GenerateReverberatedWavScp`
(lines 271-297) for replica number `i`, accumulating the
`corrupted_wav_scp` entries in insertion order. -/
def wavRecLoop (room_vals : List Room)
    (pointsource_noise_list iso_noise_list : List Noise)
    (wav : String → String) (durations : String → ℚ)
    (speech_rvb_probability isotropic_noise_addition_probability
      pointsource_noise_addition_probability : ℚ)
    (max_noises_per_minute : ℤ) (pfx : Option String) (i : ℕ) :
    List String → list_cyclic_iterator → list_cyclic_iterator → RNG →
    List (String × String) →
    Option (List (String × String) × list_cyclic_iterator × list_cyclic_iterator × RNG)
  | [], fg, bg, g, acc => some (acc, fg, bg, g)
  | recording_id :: rest, fg, bg, g, acc =>
      let wav_original_pipe := NormalizeWavPipe (wav recording_id)
      let speech_dur := durations recording_id
      let max_noises_recording : ℤ := ⌊(max_noises_per_minute : ℚ) * speech_dur / 60⌋
      match GenerateReverberationOpts room_vals pointsource_noise_list iso_noise_list
          fg bg speech_rvb_probability isotropic_noise_addition_probability
          pointsource_noise_addition_probability speech_dur max_noises_recording g with
      | none => none
      | some out =>
          let wav_corrupted_pipe :=
            if out.reverberate_opts = "" then wav_original_pipe
            else wav_original_pipe ++ " wav-reverberate " ++ out.reverberate_opts ++ " - - |"
          wavRecLoop room_vals pointsource_noise_list iso_noise_list wav durations
            speech_rvb_probability isotropic_noise_addition_probability
            pointsource_noise_addition_probability max_noises_per_minute pfx i rest
            out.foreground_snrs out.background_snrs out.g
            (acc ++ [(GetNewId recording_id pfx i, wav_corrupted_pipe)])

/-- The outer (per-replica) loop of `GenerateReverberatedWavScp`
(line 268): first argument is the number of replicas still to do, second
the current replica index `i`. -/
def wavReplicaLoop (room_vals : List Room)
    (pointsource_noise_list iso_noise_list : List Noise)
    (wav : String → String) (durations : String → ℚ)
    (speech_rvb_probability isotropic_noise_addition_probability
      pointsource_noise_addition_probability : ℚ)
    (max_noises_per_minute : ℤ) (pfx : Option String) (sorted_keys : List String) :
    ℕ → ℕ → list_cyclic_iterator → list_cyclic_iterator → RNG →
    List (String × String) → Option (List (String × String))
  | 0, _, _, _, _, acc => some acc
  | rem + 1, i, fg, bg, g, acc =>
      match wavRecLoop room_vals pointsource_noise_list iso_noise_list wav durations
          speech_rvb_probability isotropic_noise_addition_probability
          pointsource_noise_addition_probability max_noises_per_minute pfx i
          sorted_keys fg bg g acc with
      | none => none
      | some (acc2, fg2, bg2, g2) =>
          wavReplicaLoop room_vals pointsource_noise_list iso_noise_list wav durations
            speech_rvb_probability isotropic_noise_addition_probability
            pointsource_noise_addition_probability max_noises_per_minute pfx
            sorted_keys rem (i + 1) fg2 bg2 g2 acc2

/-- `GenerateReverberatedWavScp` (lines 250-299): build the two cyclic SNR
iterators (each constructor shuffles with the global generator), then loop
over replicas and sorted recording identifiers, producing the
`corrupted_wav_scp` mapping as an association list.  The dictionary inputs
are modelled as a key list plus total lookup functions. -/
def GenerateReverberatedWavScp (wav_keys : List String) (wav : String → String)
    (durations : String → ℚ) (room_vals : List Room)
    (pointsource_noise_list iso_noise_list : List Noise)
    (foreground_snr_array background_snr_array : List ℚ)
    (num_replicas : ℕ) (pfx : Option String)
    (speech_rvb_probability isotropic_noise_addition_probability
      pointsource_noise_addition_probability : ℚ)
    (max_noises_per_minute : ℤ) (g : RNG) : Option (List (String × String)) :=
  let p1 := list_cyclic_iterator.init foreground_snr_array g
  let p2 := list_cyclic_iterator.init background_snr_array p1.2
  wavReplicaLoop room_vals pointsource_noise_list iso_noise_list wav durations
    speech_rvb_probability isotropic_noise_addition_probability
    pointsource_noise_addition_probability max_noises_per_minute pfx
    (List.insertionSort (fun a b => a ≤ b) wav_keys) num_replicas 0 p1.1 p2.1 p2.2 []

/-- An RIR catalog record as parsed from the list file, before probability
smoothing (`probability` may be absent). -/
structure RirRaw where
  rir_id : String
  room_id : String
  probability : Option ℚ
  rir_file_location : String
deriving DecidableEq

/-- A noise catalog record as parsed from the list file, before
probability smoothing. -/
structure NoiseRaw where
  noise_id : String
  noise_type : String
  bg_fg_type : String
  rir_id : Option String
  probability : Option ℚ
  noise_file_location : String
deriving DecidableEq

/-- Write the smoothed weights back into the RIR records (the source
mutates `item.probability` in place). -/
def applyRirWeights (raws : List RirRaw) (ws : List ℚ) : List Rir :=
  (raws.zip ws).map (fun p => ⟨p.1.rir_id, p.1.room_id, p.2, p.1.rir_file_location⟩)

/-- `ParseRirList` (lines 383-401) after the text parsing: smooth the
probability distribution of the parsed records (default smoothing weight
0.3). -/
def ParseRirList (raws : List RirRaw) : Option (List Rir) :=
  match SmoothProbabilityDistribution (3 / 10) (raws.map RirRaw.probability) with
  | none => none
  | some ws => some (applyRirWeights raws ws)

/-- Write the smoothed weights back into the noise records. -/
def applyNoiseWeights (raws : List NoiseRaw) (ws : List ℚ) : List Noise :=
  (raws.zip ws).map (fun p =>
    ⟨p.1.noise_id, p.1.noise_type, p.1.bg_fg_type, p.1.rir_id, p.2, p.1.noise_file_location⟩)

/-- `ParseNoiseList` (lines 430-453) after the text parsing: an isotropic
noise without an associated RIR identifier raises an exception (`none`);
the records are split into the point-source and the isotropic catalog and
each catalog is smoothed independently. -/
def ParseNoiseList (raws : List NoiseRaw) : Option (List Noise × List Noise) :=
  if raws.any (fun n => n.noise_type == "isotropic" && n.rir_id == none) then none
  else
    let pointsource_raws := raws.filter (fun n => !(n.noise_type == "isotropic"))
    let iso_raws := raws.filter (fun n => n.noise_type == "isotropic")
    match SmoothProbabilityDistribution (3 / 10) (pointsource_raws.map NoiseRaw.probability),
        SmoothProbabilityDistribution (3 / 10) (iso_raws.map NoiseRaw.probability) with
    | some ws1, some ws2 =>
        some (applyNoiseWeights pointsource_raws ws1, applyNoiseWeights iso_raws ws2)
    | _, _ => none

/-- One step of the grouping loop of `MakeRoomDict` (lines 411-417): append
the RIR to the entry of its room, creating the entry on first sight. -/
def addRirToRooms (d : List (String × List Rir)) (rir : Rir) : List (String × List Rir) :=
  if d.any (fun p => p.1 == rir.room_id) then
    d.map (fun p => if p.1 = rir.room_id then (p.1, p.2 ++ [rir]) else p)
  else d ++ [(rir.room_id, [rir])]

/-- `MakeRoomDict` (lines 409-423): group the RIR list by room identifier
and give each room the sum of its members' probabilities.  The dictionary
is modelled as an association list. -/
def MakeRoomDict (rir_list : List Rir) : List (String × Room) :=
  (rir_list.foldl addRirToRooms []).map
    (fun p => (p.1, ⟨p.2, (p.2.map Rir.probability).sum⟩))

/-- The pipeline of `Main` (lines 456-479) from the parsed catalogs to the
`corrupted_wav_scp` output mapping: smooth the RIR catalog, parse/smooth
the noise catalogs, build the room dictionary, then generate the output.
`setEnum` is the enumeration order CPython's `list(set(x.values()))`
produces for the room dictionary values in this run — the source does not
control it, so the model takes it as an input. -/
def MainModel (raw_rirs : List RirRaw) (raw_noises : List NoiseRaw)
    (setEnum : List Room → List Room)
    (wav_keys : List String) (wav : String → String) (durations : String → ℚ)
    (foreground_snr_array background_snr_array : List ℚ)
    (num_replicas : ℕ) (pfx : Option String)
    (speech_rvb_probability isotropic_noise_addition_probability
      pointsource_noise_addition_probability : ℚ)
    (max_noises_per_minute : ℤ) (g : RNG) : Option (List (String × String)) :=
  match ParseRirList raw_rirs with
  | none => none
  | some rir_list =>
    match ParseNoiseList raw_noises with
    | none => none
    | some (pointsource_noise_list, iso_noise_list) =>
      GenerateReverberatedWavScp wav_keys wav durations
        (setEnum ((MakeRoomDict rir_list).map Prod.snd)) pointsource_noise_list
        iso_noise_list foreground_snr_array background_snr_array num_replicas pfx
        speech_rvb_probability isotropic_noise_addition_probability
        pointsource_noise_addition_probability max_noises_per_minute g

/-- Run `k` successive `next()` calls on a cyclic iterator, collecting the
returned elements. -/
def runCyclic (s : list_cyclic_iterator) : ℕ → Option (List ℚ × list_cyclic_iterator)
  | 0 => some ([], s)
  | k + 1 =>
      (s.next).bind (fun p => (runCyclic p.2 k).map (fun q => (p.1 :: q.1, q.2)))

theorem pickLoop_mem {α : Type} (prob : α → ℚ) :
    ∀ (l : List α) (acc p : ℚ) (it : α), pickLoop prob l acc p = some it → it ∈ l := by
  intro l
  induction l with
  | nil => intro acc p it h; simp [pickLoop] at h
  | cons a rest ih =>
      intro acc p it h
      by_cases hc : acc + prob a ≥ p
      · simp only [pickLoop, if_pos hc, Option.some.injEq] at h
        simp [h]
      · simp only [pickLoop, if_neg hc] at h
        exact List.mem_cons_of_mem _ (ih _ _ _ h)

theorem pickLoop_total {α : Type} (prob : α → ℚ) :
    ∀ (l : List α) (acc p : ℚ), l ≠ [] → p ≤ acc + (l.map prob).sum →
      ∃ it, pickLoop prob l acc p = some it := by
  intro l
  induction l with
  | nil => intro acc p h; exact absurd rfl h
  | cons a rest ih =>
      intro acc p _ hle
      by_cases hc : acc + prob a ≥ p
      · exact ⟨a, by simp only [pickLoop, if_pos hc]⟩
      · cases rest with
        | nil =>
            exact absurd (by simpa using hle) hc
        | cons b t =>
            obtain ⟨it, hit⟩ := ih (acc + prob a) p (by simp)
              (by rw [List.map_cons, List.sum_cons] at hle; linarith)
            exact ⟨it, by simp only [pickLoop, if_neg hc]; exact hit⟩

theorem pick_mem {α : Type} (prob : α → ℚ) (plist : List α) (g : RNG) (it : α)
    (g2 : RNG) (h : PickItemWithProbability prob plist g = some (it, g2)) :
    it ∈ plist := by
  simp only [PickItemWithProbability] at h
  cases hp : pickLoop prob plist 0 ((randomReal g).1 * (plist.map prob).sum) with
  | none => rw [hp] at h; exact absurd h (by simp)
  | some a =>
      rw [hp] at h
      simp only [Option.some.injEq, Prod.mk.injEq] at h
      rw [← h.1]
      exact pickLoop_mem prob _ _ _ _ hp

theorem pick_total {α : Type} (prob : α → ℚ) (plist : List α) (g : RNG)
    (hne : plist ≠ []) (hnn : ∀ it ∈ plist, 0 ≤ prob it)
    (hu1 : g.reals g.ridx ≤ 1) :
    ∃ it, PickItemWithProbability prob plist g = some (it, (randomReal g).2) ∧
      it ∈ plist := by
  have htot : 0 ≤ (plist.map prob).sum :=
    List.sum_nonneg (by intro x hx; obtain ⟨y, hy, rfl⟩ := List.mem_map.mp hx; exact hnn y hy)
  have hple : (randomReal g).1 * (plist.map prob).sum ≤ 0 + (plist.map prob).sum := by
    rw [zero_add]
    calc (randomReal g).1 * (plist.map prob).sum
        ≤ 1 * (plist.map prob).sum := mul_le_mul_of_nonneg_right hu1 htot
      _ = (plist.map prob).sum := one_mul _
  obtain ⟨it, hit⟩ := pickLoop_total prob plist 0 _ hne hple
  refine ⟨it, ?_, pickLoop_mem prob _ _ _ _ hit⟩
  simp only [PickItemWithProbability]
  rw [hit]

/-- C1: for every non-empty collection of items with positive weights and a
`random.random()` draw in `[0,1)`, `PickItemWithProbability` returns an
item of the collection (the first one whose accumulated probability
reaches the drawn `p`, by definition of `pickLoop`) and never reaches the
`assert False` branch.  In exact arithmetic the accumulation always
reaches `p` at the last item (`accumulate_p + probability = total_p ≥ p`),
which is precisely the required return-the-last-item edge-case policy. -/
theorem PickItemWithProbability_never_fails {α : Type} (prob : α → ℚ)
    (plist : List α) (g : RNG) (hne : plist ≠ [])
    (hpos : ∀ it ∈ plist, 0 < prob it)
    (_hu0 : 0 ≤ g.reals g.ridx) (hu1 : g.reals g.ridx < 1) :
    ∃ it gg, PickItemWithProbability prob plist g = some (it, gg) ∧ it ∈ plist := by
  obtain ⟨it, hit, hmem⟩ := pick_total prob plist g hne
    (fun x hx => le_of_lt (hpos x hx)) (le_of_lt hu1)
  exact ⟨it, (randomReal g).2, hit, hmem⟩

/-- A fixed concrete generator state used by the witnesses: every
`random.random()` draw is `1/10`. -/
def wRNG : RNG := ⟨fun _ => 1 / 10, fun _ => 0, 0, 0⟩

/-- A concrete point-source noise used by the witnesses. -/
def wNoiseP : Noise := ⟨"n1", "point-source", "background", none, 1, "n1.wav"⟩

theorem PickItemWithProbability_never_fails_witness :
    ∃ it gg, PickItemWithProbability Noise.probability [wNoiseP] wRNG = some (it, gg) ∧
      it ∈ [wNoiseP] := by
  refine PickItemWithProbability_never_fails Noise.probability [wNoiseP] wRNG
    (by simp) ?_ (by norm_num [wRNG]) (by norm_num [wRNG])
  intro it hit
  rw [List.mem_singleton] at hit
  subst hit
  norm_num [wNoiseP]

/-- C8: any isotropic noise selected for a recording's plan is picked from
`FilterIsotropicNoiseList iso_noise_list speech_rir.rir_id` (line 207 and
line 210), so its linked RIR identifier equals the identifier of the
speech RIR selected for that recording; a noise with any other linked RIR
identifier is filtered out and can never appear. -/
theorem isotropic_noise_matches_speech_rir (iso_noise_list : List Noise)
    (rir_id : String) (g : RNG) (noise : Noise) (g2 : RNG)
    (h : PickItemWithProbability Noise.probability
        (FilterIsotropicNoiseList iso_noise_list rir_id) g = some (noise, g2)) :
    noise.rir_id = some rir_id ∧ noise ∈ iso_noise_list := by
  have hm : noise ∈ FilterIsotropicNoiseList iso_noise_list rir_id :=
    pick_mem Noise.probability _ g noise g2 h
  unfold FilterIsotropicNoiseList at hm
  obtain ⟨hmem, hcond⟩ := List.mem_filter.mp hm
  exact ⟨eq_of_beq hcond, hmem⟩

/-- A concrete isotropic noise linked to RIR `a`, used by the witnesses. -/
def wNoiseI : Noise := ⟨"i1", "isotropic", "background", some "a", 1, "i.wav"⟩

theorem isotropic_noise_matches_speech_rir_witness :
    wNoiseI.rir_id = some "a" ∧ wNoiseI ∈ [wNoiseI] := by
  refine isotropic_noise_matches_speech_rir [wNoiseI] "a" wRNG wNoiseI
    (randomReal wRNG).2 ?_
  norm_num +decide [PickItemWithProbability, pickLoop, FilterIsotropicNoiseList,
    randomReal, wRNG, wNoiseI]

theorem next_at (l : List ℚ) (i : ℕ) (h : i < l.length) :
    list_cyclic_iterator.next ⟨l, i⟩ = some (l[i], ⟨l, (i + 1) % l.length⟩) := by
  simp [list_cyclic_iterator.next, List.getElem?_eq_getElem h]

theorem runCyclic_chunk (l : List ℚ) :
    ∀ (k i : ℕ), i < l.length → i + k ≤ l.length →
      runCyclic ⟨l, i⟩ k = some ((l.drop i).take k, ⟨l, (i + k) % l.length⟩) := by
  intro k
  induction k with
  | zero =>
      intro i hi _
      simp [runCyclic, Nat.mod_eq_of_lt hi]
  | succ k ih =>
      intro i hi hk
      have hstep := next_at l i hi
      have hdrop : l.drop i = l[i] :: l.drop (i + 1) := List.drop_eq_getElem_cons hi
      simp only [runCyclic, hstep, Option.some_bind]
      by_cases hend : i + 1 < l.length
      · have h1 : (i + 1) % l.length = i + 1 := Nat.mod_eq_of_lt hend
        have harith : i + 1 + k = i + (k + 1) := by omega
        rw [h1, ih (i + 1) hend (by omega), hdrop, harith, List.take_succ_cons]
        simp
      · have hlen : i + 1 = l.length := by omega
        have hk0 : k = 0 := by omega
        subst hk0
        have h1 : (i + 1) % l.length = 0 := by rw [hlen]; exact Nat.mod_self _
        rw [h1]
        simp only [runCyclic, Option.map_some']
        rw [hdrop, List.drop_eq_nil_of_le (le_of_eq hlen.symm), List.take_succ_cons]
        simp [h1]

theorem runCyclic_append (k1 : ℕ) :
    ∀ (k2 : ℕ) (s s1 s2 : list_cyclic_iterator) (as1 as2 : List ℚ),
      runCyclic s k1 = some (as1, s1) → runCyclic s1 k2 = some (as2, s2) →
      runCyclic s (k1 + k2) = some (as1 ++ as2, s2) := by
  induction k1 with
  | zero =>
      intro k2 s s1 s2 as1 as2 h1 h2
      simp only [runCyclic, Option.some.injEq, Prod.mk.injEq] at h1
      obtain ⟨ha, hs⟩ := h1
      subst hs
      rw [Nat.zero_add, ← ha]
      simpa using h2
  | succ k ih =>
      intro k2 s s1 s2 as1 as2 h1 h2
      have harith : k + 1 + k2 = (k + k2) + 1 := by omega
      rw [harith]
      simp only [runCyclic] at h1 ⊢
      cases hnext : s.next with
      | none => rw [hnext] at h1; simp at h1
      | some p =>
          rw [hnext] at h1
          simp only [Option.some_bind] at h1 ⊢
          cases hrun : runCyclic p.2 k with
          | none => rw [hrun] at h1; simp at h1
          | some q =>
              rw [hrun] at h1
              simp only [Option.map_some', Option.some.injEq, Prod.mk.injEq] at h1
              obtain ⟨ha, hs⟩ := h1
              have hq := ih k2 p.2 q.2 s2 q.1 as2 (by rw [hrun]) (by rw [hs]; exact h2)
              rw [hq, ← ha]
              simp

theorem runCyclic_full (l : List ℚ) (i : ℕ) (h : i < l.length) :
    runCyclic ⟨l, i⟩ l.length = some (l.rotate i, ⟨l, i⟩) := by
  have hpos : 0 < l.length := Nat.lt_of_le_of_lt (Nat.zero_le i) h
  have hchunk1 := runCyclic_chunk l (l.length - i) i h (by omega)
  have hchunk2 := runCyclic_chunk l i 0 hpos (by omega)
  have he1 : (i + (l.length - i)) % l.length = 0 := by
    rw [show i + (l.length - i) = l.length by omega]
    exact Nat.mod_self _
  have he2 : (0 + i) % l.length = i := by
    rw [Nat.zero_add]
    exact Nat.mod_eq_of_lt h
  rw [he1] at hchunk1
  rw [he2] at hchunk2
  have htake1 : (l.drop i).take (l.length - i) = l.drop i := by
    apply List.take_of_length_le
    rw [List.length_drop]
  have htake2 : (l.drop 0).take i = l.take i := by rw [List.drop_zero]
  rw [htake1] at hchunk1
  rw [htake2] at hchunk2
  have := runCyclic_append (l.length - i) i ⟨l, i⟩ ⟨l, 0⟩ ⟨l, i⟩
    (l.drop i) (l.take i) hchunk1 hchunk2
  rw [show l.length - i + i = l.length by omega] at this
  rw [this, List.rotate_eq_drop_append_take (le_of_lt h)]

/-- C7: for a cyclic iterator over a non-empty list of length `n` with any
valid cursor `i`, `next()` returns the element at the cursor and advances
the cursor by 1 modulo `n`; `n` consecutive calls return `l.rotate i` — a
permutation of the list, hence every element exactly once — and leave the
iterator in its initial state, so the following `n` calls repeat the same
sequence in the same order. -/
theorem cyclic_iterator_cycle (l : List ℚ) (i : ℕ) (h : i < l.length) :
    list_cyclic_iterator.next ⟨l, i⟩ = some (l[i], ⟨l, (i + 1) % l.length⟩) ∧
    runCyclic ⟨l, i⟩ l.length = some (l.rotate i, ⟨l, i⟩) ∧
    (l.rotate i).Perm l ∧
    runCyclic ⟨l, i⟩ (l.length + l.length) = some (l.rotate i ++ l.rotate i, ⟨l, i⟩) := by
  refine ⟨next_at l i h, runCyclic_full l i h, List.rotate_perm l i, ?_⟩
  exact runCyclic_append _ _ _ _ _ _ _ (runCyclic_full l i h) (runCyclic_full l i h)

theorem cyclic_iterator_cycle_witness :
    1 < ([20, 10, 0] : List ℚ).length ∧
    runCyclic ⟨[20, 10, 0], 1⟩ ([20, 10, 0] : List ℚ).length =
      some (([20, 10, 0] : List ℚ).rotate 1, ⟨[20, 10, 0], 1⟩) ∧
    (([20, 10, 0] : List ℚ).rotate 1).Perm [20, 10, 0] := by
  have h : 1 < ([20, 10, 0] : List ℚ).length := by norm_num
  have hc := cyclic_iterator_cycle [20, 10, 0] 1 h
  exact ⟨h, hc.2.1, hc.2.2.1⟩

theorem list_sum_div (l : List ℚ) (c : ℚ) : (l.map (fun x => x / c)).sum = l.sum / c := by
  induction l with
  | nil => simp
  | cons a t ih => simp [ih, add_div]

theorem list_sum_pos_of_mem (l : List ℚ) (b : ℚ) (hb : b ∈ l) (hpos : 0 < b)
    (hnn : ∀ x ∈ l, 0 ≤ x) : 0 < l.sum := by
  induction l with
  | nil => simp at hb
  | cons a t ih =>
      rw [List.sum_cons]
      rcases List.mem_cons.mp hb with h | h
      · subst h
        have ht : 0 ≤ t.sum :=
          List.sum_nonneg (fun x hx => hnn x (List.mem_cons_of_mem _ hx))
        linarith
      · have ha : 0 ≤ a := hnn a (List.mem_cons_self _ _)
        have ht := ih h (fun x hx => hnn x (List.mem_cons_of_mem _ hx))
        linarith

/-- C5: `SmoothProbabilityDistribution` on an empty item list fails
(`1 / float(len(list))` raises `ZeroDivisionError`, the model's `none`;
the spec's taxonomy calls this a ConfigurationError), and inside the main
pipeline this failure occurs while the catalogs are smoothed, before the
output mapping is produced, so no output is written. -/
theorem SmoothProbabilityDistribution_empty_aborts (smoothing_weight : ℚ)
    (raw_noises : List NoiseRaw) (setEnum : List Room → List Room)
    (wav_keys : List String) (wav : String → String) (durations : String → ℚ)
    (fg_arr bg_arr : List ℚ) (num_replicas : ℕ) (pfx : Option String)
    (p1 p2 p3 : ℚ) (mnpm : ℤ) (g : RNG) :
    SmoothProbabilityDistribution smoothing_weight [] = none ∧
    MainModel [] raw_noises setEnum wav_keys wav durations fg_arr bg_arr
      num_replicas pfx p1 p2 p3 mnpm g = none := ⟨rfl, rfl⟩

/-- C6 (amended): for a non-empty weight list with non-negative (or
absent) raw weights and smoothing factor in `[0,1]`, and excluding the
degenerate corner where the factor is `0` and every item carries an
explicit raw weight `0` (there the final normalization divides by zero and
the source raises `ZeroDivisionError`), smoothing assigns the uniform
weight to weightless items, blends the rest, rescales by the blended sum,
and the result is non-negative and sums to exactly 1 (hence within
`1e-9`). -/
theorem smooth_distribution_amended (s : ℚ) (ws : List (Option ℚ))
    (hne : ws ≠ [])
    (hnn : ∀ w ∈ ws, 0 ≤ w.getD 0)
    (hs0 : 0 ≤ s) (hs1 : s ≤ 1)
    (hdeg : ¬(s = 0 ∧ ∀ w ∈ ws, w = some 0)) :
    ∃ out, SmoothProbabilityDistribution s ws = some out ∧
      (∀ x ∈ out, 0 ≤ x) ∧ out.sum = 1 := by
  have hlen : ¬ws.length = 0 := fun h => hne (List.length_eq_zero.mp h)
  have hnpos : (0 : ℚ) < (ws.length : ℚ) := by
    exact_mod_cast Nat.pos_of_ne_zero hlen
  have hupos : (0 : ℚ) < 1 / (ws.length : ℚ) := by positivity
  set u : ℚ := 1 / (ws.length : ℚ) with hu
  set B : List ℚ := ws.map (blendWeight s u) with hB
  have hBnn : ∀ x ∈ B, 0 ≤ x := by
    intro x hx
    obtain ⟨w, hw, rfl⟩ := List.mem_map.mp hx
    cases w with
    | none => exact le_of_lt hupos
    | some r =>
        have hr : 0 ≤ r := by simpa using hnn (some r) hw
        have h1s : 0 ≤ 1 - s := by linarith
        have := mul_nonneg h1s hr
        have := mul_nonneg hs0 (le_of_lt hupos)
        simp only [blendWeight]
        linarith
  have hBpos : 0 < B.sum := by
    by_cases hs : s = 0
    · subst hs
      have hx : ∃ w ∈ ws, w ≠ some 0 := by
        by_contra hall
        push_neg at hall
        exact hdeg ⟨rfl, hall⟩
      obtain ⟨w, hw, hwne⟩ := hx
      cases w with
      | none =>
          exact list_sum_pos_of_mem B u (List.mem_map_of_mem _ hw) hupos hBnn
      | some r =>
          have hr0 : 0 ≤ r := by simpa using hnn (some r) hw
          have hrne : r ≠ 0 := fun h => hwne (by rw [h])
          have hrpos : 0 < r := lt_of_le_of_ne hr0 (Ne.symm hrne)
          refine list_sum_pos_of_mem B (blendWeight 0 u (some r))
            (List.mem_map_of_mem _ hw) ?_ hBnn
          simp only [blendWeight]
          linarith
    · have hspos : 0 < s := lt_of_le_of_ne hs0 (Ne.symm hs)
      obtain ⟨w, hw⟩ := List.exists_mem_of_ne_nil ws hne
      refine list_sum_pos_of_mem B (blendWeight s u w) (List.mem_map_of_mem _ hw) ?_ hBnn
      have hsu : 0 < s * u := mul_pos hspos hupos
      cases w with
      | none => simpa [blendWeight] using hupos
      | some r =>
          have hr : 0 ≤ r := by simpa using hnn (some r) hw
          have h1s : 0 ≤ 1 - s := by linarith
          have := mul_nonneg h1s hr
          simp only [blendWeight]
          linarith
  refine ⟨B.map (fun w => w / B.sum), ?_, ?_, ?_⟩
  · simp only [SmoothProbabilityDistribution, if_neg hlen, ← hu, ← hB,
      if_neg (ne_of_gt hBpos)]
  · intro x hx
    obtain ⟨b, hb, rfl⟩ := List.mem_map.mp hx
    exact div_nonneg (hBnn b hb) (le_of_lt hBpos)
  · rw [list_sum_div]
    exact div_self (ne_of_gt hBpos)

/-- C6 counterexample: with smoothing factor `0` (inside the claimed
range `[0,1]`) and a single item with explicit raw weight `0`
(non-negative), the blended weights sum to `0` and the normalization step
divides by zero, so the function fails instead of returning a
distribution summing to 1. -/
theorem smooth_zero_weights_cex :
    SmoothProbabilityDistribution 0 [some 0] = none ∧
    ([some 0] : List (Option ℚ)) ≠ [] ∧ (0 : ℚ) ≤ 0 ∧ ((0 : ℚ) ≤ 0 ∧ (0 : ℚ) ≤ 1) := by
  refine ⟨?_, by simp, le_refl 0, le_refl 0, by norm_num⟩
  norm_num [SmoothProbabilityDistribution, blendWeight]

theorem smooth_distribution_amended_witness :
    ∃ out, SmoothProbabilityDistribution (3 / 10) [some (1 / 2), none] = some out ∧
      (∀ x ∈ out, 0 ≤ x) ∧ out.sum = 1 := by
  refine smooth_distribution_amended (3 / 10) [some (1 / 2), none] (by simp) ?_
    (by norm_num) (by norm_num) ?_
  · intro w hw
    simp only [List.mem_cons, List.mem_singleton] at hw
    rcases hw with rfl | rfl | h
    · norm_num
    · norm_num
    · simp at h
  · intro hcon
    have h1 := hcon.1
    norm_num at h1

/-- The total probability mass stored in a room-grouping accumulator. -/
def roomsTotal (d : List (String × List Rir)) : ℚ :=
  (d.map (fun p => (p.2.map Rir.probability).sum)).sum

theorem keys_addRirToRooms (d : List (String × List Rir)) (rir : Rir) :
    (addRirToRooms d rir).map Prod.fst =
      if d.any (fun p => p.1 == rir.room_id) then d.map Prod.fst
      else d.map Prod.fst ++ [rir.room_id] := by
  unfold addRirToRooms
  by_cases h : d.any (fun p => p.1 == rir.room_id)
  · rw [if_pos h, if_pos h, List.map_map]
    apply List.map_congr_left
    intro p _
    by_cases hp : p.1 = rir.room_id <;> simp [hp]
  · rw [if_neg h, if_neg h]
    simp

theorem mem_addRirToRooms (d : List (String × List Rir)) (rir : Rir)
    (hkeys : ∀ p ∈ d, ∀ r ∈ p.2, r.room_id = p.1) :
    ∀ p ∈ addRirToRooms d rir, ∀ r ∈ p.2, r.room_id = p.1 := by
  intro p hp r hr
  unfold addRirToRooms at hp
  by_cases h : d.any (fun q => q.1 == rir.room_id)
  · rw [if_pos h] at hp
    obtain ⟨q, hq, hqe⟩ := List.mem_map.mp hp
    by_cases hq1 : q.1 = rir.room_id
    · rw [if_pos hq1] at hqe
      subst hqe
      rcases List.mem_append.mp hr with hr2 | hr2
      · exact hkeys q hq r hr2
      · rw [List.mem_singleton] at hr2
        subst hr2
        exact hq1.symm
    · rw [if_neg hq1] at hqe
      subst hqe
      exact hkeys q hq r hr
  · rw [if_neg h] at hp
    rcases List.mem_append.mp hp with hp2 | hp2
    · exact hkeys p hp2 r hr
    · rw [List.mem_singleton] at hp2
      subst hp2
      rw [List.mem_singleton] at hr
      subst hr
      rfl

theorem roomsTotal_addRirToRooms :
    ∀ (d : List (String × List Rir)) (rir : Rir), (d.map Prod.fst).Nodup →
      roomsTotal (addRirToRooms d rir) = roomsTotal d + rir.probability := by
  intro d
  induction d with
  | nil =>
      intro rir _
      simp [addRirToRooms, roomsTotal]
  | cons a t ih =>
      intro rir hnodup
      rw [List.map_cons, List.nodup_cons] at hnodup
      obtain ⟨hna, hnt⟩ := hnodup
      unfold addRirToRooms
      by_cases hcond : (a :: t).any (fun p => p.1 == rir.room_id)
      · rw [if_pos hcond]
        by_cases ha : a.1 = rir.room_id
        · have htail :
              t.map (fun p => if p.1 = rir.room_id then (p.1, p.2 ++ [rir]) else p) = t := by
            have hpt : ∀ p ∈ t,
                (if p.1 = rir.room_id then (p.1, p.2 ++ [rir]) else p) = p := by
              intro p hp
              have hne : p.1 ≠ rir.room_id := by
                intro hc
                exact hna (List.mem_map.mpr ⟨p, hp, by rw [hc, ha]⟩)
              rw [if_neg hne]
            rw [List.map_congr_left hpt]; simp
          rw [List.map_cons, if_pos ha, htail]
          unfold roomsTotal
          simp only [List.map_cons, List.sum_cons, List.map_append, List.sum_append]
          simp
          ring
        · have hat : t.any (fun p => p.1 == rir.room_id) := by
            simp only [List.any_cons, Bool.or_eq_true] at hcond
            rcases hcond with hc | hc
            · exact absurd (by simpa using hc) ha
            · exact hc
          have hone := ih rir hnt
          unfold addRirToRooms at hone
          rw [if_pos hat] at hone
          rw [List.map_cons, if_neg ha]
          unfold roomsTotal at hone ⊢
          simp only [List.map_cons, List.sum_cons]
          rw [hone]
          ring
      · rw [if_neg hcond]
        unfold roomsTotal
        simp only [List.map_cons, List.sum_cons, List.map_append, List.sum_append,
          List.map_nil, List.sum_nil, List.map_map]
        simp

theorem foldl_addRirToRooms_inv :
    ∀ (rl : List Rir) (d : List (String × List Rir)),
      (d.map Prod.fst).Nodup → (∀ p ∈ d, ∀ r ∈ p.2, r.room_id = p.1) →
      ((rl.foldl addRirToRooms d).map Prod.fst).Nodup ∧
      (∀ p ∈ rl.foldl addRirToRooms d, ∀ r ∈ p.2, r.room_id = p.1) ∧
      roomsTotal (rl.foldl addRirToRooms d) =
        roomsTotal d + (rl.map Rir.probability).sum := by
  intro rl
  induction rl with
  | nil =>
      intro d h1 h2
      refine ⟨h1, h2, by simp⟩
  | cons rir rest ih =>
      intro d h1 h2
      have hnodup2 : ((addRirToRooms d rir).map Prod.fst).Nodup := by
        rw [keys_addRirToRooms]
        by_cases h : d.any (fun p => p.1 == rir.room_id)
        · rw [if_pos h]; exact h1
        · rw [if_neg h]
          refine List.Nodup.append h1 (List.nodup_singleton _) ?_
          intro x hx hx2
          rw [List.mem_singleton] at hx2
          subst hx2
          obtain ⟨p, hp, hpe⟩ := List.mem_map.mp hx
          exact h (List.any_eq_true.mpr ⟨p, hp, by simp [hpe]⟩)
      have hmem2 := mem_addRirToRooms d rir h2
      have htot2 := roomsTotal_addRirToRooms d rir h1
      obtain ⟨i1, i2, i3⟩ := ih (addRirToRooms d rir) hnodup2 hmem2
      refine ⟨i1, i2, ?_⟩
      rw [List.foldl_cons] at *
      rw [i3, htot2, List.map_cons, List.sum_cons]
      ring

/-- C9: given an RIR list whose probabilities sum to 1, `MakeRoomDict`
gives every room the sum of the probabilities of the RIRs grouped into it,
the room probabilities sum to 1 with no renormalization, and no two
distinct rooms share an impulse response (a member of one room's list is
never a member of another's). -/
theorem MakeRoomDict_partition_and_total (rir_list : List Rir)
    (hsum : (rir_list.map Rir.probability).sum = 1) :
    (∀ p ∈ MakeRoomDict rir_list,
        p.2.probability = (p.2.rir_list.map Rir.probability).sum) ∧
    ((MakeRoomDict rir_list).map (fun p => p.2.probability)).sum = 1 ∧
    (MakeRoomDict rir_list).Pairwise
      (fun p q => ∀ r, r ∈ p.2.rir_list → r ∉ q.2.rir_list) := by
  obtain ⟨hnodup, hmem, htot⟩ := foldl_addRirToRooms_inv rir_list [] (by simp) (by simp)
  refine ⟨?_, ?_, ?_⟩
  · intro p hp
    obtain ⟨q, hq, hqe⟩ := List.mem_map.mp hp
    rw [← hqe]
  · unfold MakeRoomDict
    rw [List.map_map]
    have hfun : ((fun p => p.2.probability) ∘
        (fun (p : String × List Rir) => (p.1, Room.mk p.2 ((p.2.map Rir.probability).sum)))) =
        (fun p => (p.2.map Rir.probability).sum) := rfl
    rw [hfun]
    show roomsTotal (rir_list.foldl addRirToRooms []) = 1
    rw [htot, hsum]
    simp [roomsTotal]
  · unfold MakeRoomDict
    rw [List.pairwise_map]
    have hpw : (rir_list.foldl addRirToRooms []).Pairwise (fun p q => p.1 ≠ q.1) :=
      List.pairwise_map.mp hnodup
    refine List.Pairwise.imp_of_mem ?_ hpw
    intro p q hp hq hne r hrp hrq
    exact hne ((hmem p hp r hrp) ▸ (hmem q hq r hrq) ▸ rfl)

/-- Concrete RIR records used by the C9 witness: two rooms, probabilities
summing to 1. -/
def wRirList : List Rir :=
  [⟨"a", "ra", 1 / 2, "a.wav"⟩, ⟨"b", "ra", 1 / 4, "a2.wav"⟩, ⟨"c", "rb", 1 / 4, "b.wav"⟩]

theorem MakeRoomDict_partition_and_total_witness :
    (wRirList.map Rir.probability).sum = 1 ∧
    ((MakeRoomDict wRirList).map (fun p => p.2.probability)).sum = 1 := by
  have hsum : (wRirList.map Rir.probability).sum = 1 := by
    norm_num [wRirList]
  exact ⟨hsum, (MakeRoomDict_partition_and_total wRirList hsum).2.1⟩

theorem pick_rng {α : Type} (prob : α → ℚ) (plist : List α) (g : RNG) (it : α)
    (g2 : RNG) (h : PickItemWithProbability prob plist g = some (it, g2)) :
    g2.reals = g.reals ∧ g2.ints = g.ints := by
  simp only [PickItemWithProbability] at h
  cases hp : pickLoop prob plist 0 ((randomReal g).1 * (plist.map prob).sum) with
  | none => rw [hp] at h; simp at h
  | some a =>
      rw [hp] at h
      simp only [Option.some.injEq, Prod.mk.injEq] at h
      rw [← h.2]
      exact ⟨rfl, rfl⟩

theorem randint_rng (a b : ℤ) (g : RNG) (n : ℤ) (g2 : RNG)
    (h : randint a b g = some (n, g2)) : g2.reals = g.reals ∧ g2.ints = g.ints := by
  unfold randint at h
  by_cases hab : a > b
  · rw [if_pos hab] at h; simp at h
  · rw [if_neg hab] at h
    simp only [Option.some.injEq, Prod.mk.injEq] at h
    rw [← h.2]
    exact ⟨rfl, rfl⟩

theorem pyRound2_nonneg (x : ℚ) (hx : 0 ≤ x) : 0 ≤ pyRound2 x := by
  unfold pyRound2
  rw [if_pos hx]
  have hfl : (0 : ℤ) ≤ ⌊x * 100 + 1 / 2⌋ := by
    apply Int.le_floor.mpr
    push_cast
    linarith
  have : (0 : ℚ) ≤ ((⌊x * 100 + 1 / 2⌋ : ℤ) : ℚ) := by exact_mod_cast hfl
  positivity

/-- The invariant of the three parallel descriptor lists. -/
def DescAligned (d : NoiseAdditionDescriptor) : Prop :=
  d.noise_io_list.length = d.start_times.length ∧
  d.noise_io_list.length = d.snrs.length ∧
  ∀ t ∈ d.start_times, 0 ≤ t

theorem psLoop_aligned (room : Room) (ps : List Noise) (dur : ℚ) (hdur : 0 ≤ dur) :
    ∀ (k : ℕ) (d : NoiseAdditionDescriptor) (fg bg : list_cyclic_iterator) (g : RNG),
      (∀ j, 0 ≤ g.reals j) → DescAligned d →
      ∀ res, psLoop room ps dur k d fg bg g = some res → DescAligned res.1 := by
  intro k
  induction k with
  | zero =>
      intro d fg bg g hg hd res hres
      simp only [psLoop, Option.some.injEq] at hres
      rw [← hres]
      exact hd
  | succ k ih =>
      intro d fg bg g hg hd res hres
      obtain ⟨h1, h2, h3⟩ := hd
      simp only [psLoop] at hres
      split at hres
      · simp at hres
      · rename_i noise g1 hn
        split at hres
        · simp at hres
        · rename_i noise_rir g2 hr
          have hg2 : ∀ j, 0 ≤ g2.reals j := by
            rw [(pick_rng _ _ _ _ _ hr).1, (pick_rng _ _ _ _ _ hn).1]; exact hg
          split at hres
          · split at hres
            · simp at hres
            · rename_i snr bg2 hb
              refine ih _ fg bg2 g2 hg2 ⟨by simp [h1], by simp [h2], ?_⟩ res hres
              intro t ht
              rcases List.mem_append.mp ht with ht2 | ht2
              · exact h3 t ht2
              · rw [List.mem_singleton] at ht2
                rw [ht2]
          · split at hres
            · simp at hres
            · rename_i snr fg2 hf
              refine ih _ fg2 bg _ (by simpa [randomReal] using hg2)
                ⟨by simp [h1], by simp [h2], ?_⟩ res hres
              intro t ht
              rcases List.mem_append.mp ht with ht2 | ht2
              · exact h3 t ht2
              · rw [List.mem_singleton] at ht2
                rw [ht2]
                exact pyRound2_nonneg _ (mul_nonneg (hg2 _) hdur)

theorem AddPointSourceNoise_aligned (d : NoiseAdditionDescriptor) (room : Room)
    (ps : List Noise) (prob : ℚ) (fg bg : list_cyclic_iterator) (dur : ℚ)
    (maxN : ℤ) (g : RNG) (hdur : 0 ≤ dur) (hg : ∀ j, 0 ≤ g.reals j)
    (hd : DescAligned d) (res)
    (hres : AddPointSourceNoise d room ps prob fg bg dur maxN g = some res) :
    DescAligned res.1 := by
  simp only [AddPointSourceNoise] at hres
  split at hres
  · split at hres
    · split at hres
      · simp at hres
      · rename_i count g2 hri
        refine psLoop_aligned room ps dur hdur _ d fg bg g2 ?_ hd res hres
        rw [(randint_rng _ _ _ _ _ hri).1]
        intro j
        simpa [randomReal] using hg j
    · simp only [Option.some.injEq] at hres
      rw [← hres]
      exact hd
  · simp only [Option.some.injEq] at hres
    rw [← hres]
    exact hd

/-- C10: whenever `GenerateReverberationOpts` returns (so at the point of
the two assertions of lines 226-227), every branch that recorded a noise
appended exactly one entry to each of `noise_io`, `start_times` and
`snrs`, so the three parallel lists have equal lengths (both assertions
hold) and every recorded start time is non-negative. -/
theorem descriptor_lists_aligned (room_vals : List Room) (ps iso : List Noise)
    (fg bg : list_cyclic_iterator)
    (speech_rvb_probability isotropic_noise_addition_probability
      pointsource_noise_addition_probability dur : ℚ) (maxN : ℤ) (g : RNG)
    (hdur : 0 ≤ dur) (hg : ∀ j, 0 ≤ g.reals j) (out : GenOut)
    (h : GenerateReverberationOpts room_vals ps iso fg bg speech_rvb_probability
        isotropic_noise_addition_probability pointsource_noise_addition_probability
        dur maxN g = some out) :
    out.noise_addition_descriptor.noise_io_list.length =
      out.noise_addition_descriptor.start_times.length ∧
    out.noise_addition_descriptor.noise_io_list.length =
      out.noise_addition_descriptor.snrs.length ∧
    ∀ t ∈ out.noise_addition_descriptor.start_times, 0 ≤ t := by
  simp only [GenerateReverberationOpts] at h
  split at h
  · simp at h
  · rename_i room g1 hroom
    split at h
    · simp at h
    · rename_i speech_rir g2 hrir
      have hg2 : ∀ j, 0 ≤ g2.reals j := by
        rw [(pick_rng _ _ _ _ _ hrir).1, (pick_rng _ _ _ _ _ hroom).1]
        exact hg
      split at h
      · simp at h
      · rename_i d1 bg1 g6 hstep4
        split at h
        · simp at h
        · rename_i d2 fg2 bg2 g7 hadd
          simp only [Option.some.injEq] at h
          have hd1g6 : DescAligned d1 ∧ (∀ j, 0 ≤ g6.reals j) := by
            split at hstep4
            · split at hstep4
              · split at hstep4
                · simp at hstep4
                · rename_i isotropic_noise g5 hiso
                  split at hstep4
                  · simp at hstep4
                  · rename_i snr bg3 hnextbg
                    simp only [Option.some.injEq, Prod.mk.injEq] at hstep4
                    obtain ⟨he1, he2, he3⟩ := hstep4
                    refine ⟨?_, ?_⟩
                    · rw [← he1]
                      refine ⟨rfl, rfl, ?_⟩
                      intro t ht
                      rw [List.mem_singleton] at ht
                      rw [ht]
                    · rw [← he3, (pick_rng _ _ _ _ _ hiso).1]
                      intro j
                      simpa [randomReal] using hg2 j
              · simp only [Option.some.injEq, Prod.mk.injEq] at hstep4
                obtain ⟨he1, he2, he3⟩ := hstep4
                refine ⟨?_, ?_⟩
                · rw [← he1]
                  exact ⟨rfl, rfl, by intro t ht; simp at ht⟩
                · rw [← he3]
                  intro j
                  simpa [randomReal] using hg2 j
            · simp only [Option.some.injEq, Prod.mk.injEq] at hstep4
              obtain ⟨he1, he2, he3⟩ := hstep4
              refine ⟨?_, ?_⟩
              · rw [← he1]
                exact ⟨rfl, rfl, by intro t ht; simp at ht⟩
              · rw [← he3]
                intro j
                exact hg2 j
          rw [← h]
          exact AddPointSourceNoise_aligned d1 room ps _ fg bg1 dur maxN g6 hdur
            hd1g6.2 hd1g6.1 (d2, fg2, bg2, g7) hadd

/-- A concrete one-RIR room used by the witnesses. -/
def wRoom : Room := ⟨[⟨"r1", "roomA", 1, "rir1.wav"⟩], 1⟩

/-- A concrete cyclic iterator state used by the witnesses. -/
def wCyc : list_cyclic_iterator := ⟨[20], 0⟩

/-- A concrete isotropic noise linked to the witness room's RIR. -/
def wNoiseIr1 : Noise := ⟨"i2", "isotropic", "background", some "r1", 1, "i2.wav"⟩

theorem descriptor_lists_aligned_witness :
    ∃ out,
      GenerateReverberationOpts [wRoom] [wNoiseP] [wNoiseIr1] wCyc wCyc 1 1 1 60 2 wRNG =
        some out ∧
      out.noise_addition_descriptor.noise_io_list.length =
        out.noise_addition_descriptor.start_times.length ∧
      out.noise_addition_descriptor.noise_io_list.length =
        out.noise_addition_descriptor.snrs.length ∧
      ∀ t ∈ out.noise_addition_descriptor.start_times, 0 ≤ t := by
  cases hEq : GenerateReverberationOpts [wRoom] [wNoiseP] [wNoiseIr1] wCyc wCyc
      1 1 1 60 2 wRNG with
  | none =>
      exact absurd hEq (by
        norm_num +decide [GenerateReverberationOpts, AddPointSourceNoise, psLoop,
          PickItemWithProbability, pickLoop, randomReal, randint,
          FilterIsotropicNoiseList, list_cyclic_iterator.next, renderOpts,
          wRNG, wRoom, wNoiseP, wNoiseIr1, wCyc]
        exact Option.some_ne_none _)
  | some out =>
      exact ⟨out, rfl, descriptor_lists_aligned [wRoom] [wNoiseP] [wNoiseIr1] wCyc wCyc
        1 1 1 60 2 wRNG (by norm_num) (fun j => by norm_num [wRNG]) out hEq⟩

/-- C2 (code bug): with `max_noises_recording = 0`, a non-empty
point-source noise list, and a probability draw below the threshold
(0.1 < 1), `AddPointSourceNoise` evaluates `random.randint(1, 0)`, which
raises `ValueError: empty range for randrange()` (modelled `none`),
instead of producing no noise and returning the descriptor unchanged. -/
theorem AddPointSourceNoise_maxzero_value_error :
    AddPointSourceNoise ⟨[], [], []⟩ wRoom [wNoiseP] 1 wCyc wCyc 10 0 wRNG = none := by
  norm_num [AddPointSourceNoise, randomReal, randint, wRNG, wRoom, wNoiseP, wCyc]

theorem gen_opts_all_zero (room_vals : List Room) (ps iso : List Noise)
    (fg bg : list_cyclic_iterator) (dur : ℚ) (maxN : ℤ) (g : RNG)
    (hg : ∀ j, 0 ≤ g.reals j ∧ g.reals j < 1)
    (hne : room_vals ≠ [])
    (hroomp : ∀ room ∈ room_vals, 0 ≤ room.probability)
    (hrir : ∀ room ∈ room_vals, room.rir_list ≠ [] ∧
      ∀ r ∈ room.rir_list, 0 ≤ r.probability) :
    ∃ g2, GenerateReverberationOpts room_vals ps iso fg bg 0 0 0 dur maxN g =
        some ⟨"", ⟨[], [], []⟩, fg, bg, g2⟩ ∧ g2.reals = g.reals := by
  obtain ⟨room, hpr, hmr⟩ := pick_total Room.probability room_vals g hne hroomp
    (le_of_lt (hg _).2)
  obtain ⟨speech_rir, hps, hms⟩ := pick_total Rir.probability room.rir_list
    (randomReal g).2 (hrir room hmr).1 (hrir room hmr).2 (le_of_lt (hg _).2)
  have hnotlt : ∀ j, ¬(g.reals j < 0) := fun j => not_lt.mpr (hg j).1
  simp only [randomReal] at hpr hps
  by_cases hlen : (FilterIsotropicNoiseList iso speech_rir.rir_id).length > 0
  · by_cases hps0 : ps.length > 0
    · refine ⟨⟨g.reals, g.ints, g.ridx + 1 + 1 + 1 + 1 + 1, g.iidx⟩, ?_, rfl⟩
      simp [GenerateReverberationOpts, hpr, hps, AddPointSourceNoise, renderOpts,
        randomReal, hnotlt, hlen, hps0]
    · refine ⟨⟨g.reals, g.ints, g.ridx + 1 + 1 + 1 + 1, g.iidx⟩, ?_, rfl⟩
      simp [GenerateReverberationOpts, hpr, hps, AddPointSourceNoise, renderOpts,
        randomReal, hnotlt, hlen, hps0]
  · by_cases hps0 : ps.length > 0
    · refine ⟨⟨g.reals, g.ints, g.ridx + 1 + 1 + 1 + 1, g.iidx⟩, ?_, rfl⟩
      simp [GenerateReverberationOpts, hpr, hps, AddPointSourceNoise, renderOpts,
        randomReal, hnotlt, hlen, hps0]
    · refine ⟨⟨g.reals, g.ints, g.ridx + 1 + 1 + 1, g.iidx⟩, ?_, rfl⟩
      simp [GenerateReverberationOpts, hpr, hps, AddPointSourceNoise, renderOpts,
        randomReal, hnotlt, hlen, hps0]

theorem shuffleAux_rng :
    ∀ (m : ℕ) (l : List ℚ) (g : RNG),
      ((shuffleAux m l g).2).reals = g.reals ∧ ((shuffleAux m l g).2).ints = g.ints := by
  intro m
  induction m with
  | zero => intro l g; exact ⟨rfl, rfl⟩
  | succ m ih =>
      intro l g
      simp only [shuffleAux]
      exact ih _ _

theorem wavRecLoop_all_zero (room_vals : List Room) (ps iso : List Noise)
    (wav : String → String) (durs : String → ℚ) (mnpm : ℤ) (pfx : Option String)
    (i : ℕ)
    (hne : room_vals ≠ [])
    (hroomp : ∀ room ∈ room_vals, 0 ≤ room.probability)
    (hrir : ∀ room ∈ room_vals, room.rir_list ≠ [] ∧
      ∀ r ∈ room.rir_list, 0 ≤ r.probability) :
    ∀ (keys : List String) (fg bg : list_cyclic_iterator) (g : RNG)
      (acc : List (String × String)),
      (∀ j, 0 ≤ g.reals j ∧ g.reals j < 1) →
      ∃ g2, wavRecLoop room_vals ps iso wav durs 0 0 0 mnpm pfx i keys fg bg g acc =
          some (acc ++ keys.map (fun k => (GetNewId k pfx i, NormalizeWavPipe (wav k))),
            fg, bg, g2) ∧
        g2.reals = g.reals := by
  intro keys
  induction keys with
  | nil =>
      intro fg bg g acc hg
      exact ⟨g, by simp [wavRecLoop], rfl⟩
  | cons key rest ih =>
      intro fg bg g acc hg
      obtain ⟨g2, hgen, hre⟩ := gen_opts_all_zero room_vals ps iso fg bg (durs key)
        (⌊(mnpm : ℚ) * durs key / 60⌋) g hg hne hroomp hrir
      have hg2 : ∀ j, 0 ≤ g2.reals j ∧ g2.reals j < 1 := by rw [hre]; exact hg
      obtain ⟨g3, hrest, hre3⟩ := ih fg bg g2
        (acc ++ [(GetNewId key pfx i, NormalizeWavPipe (wav key))]) hg2
      refine ⟨g3, ?_, by rw [hre3, hre]⟩
      simp only [wavRecLoop, hgen, if_true]
      rw [hrest]
      simp

theorem wavReplicaLoop_all_zero (room_vals : List Room) (ps iso : List Noise)
    (wav : String → String) (durs : String → ℚ) (mnpm : ℤ) (pfx : Option String)
    (keys : List String)
    (hne : room_vals ≠ [])
    (hroomp : ∀ room ∈ room_vals, 0 ≤ room.probability)
    (hrir : ∀ room ∈ room_vals, room.rir_list ≠ [] ∧
      ∀ r ∈ room.rir_list, 0 ≤ r.probability) :
    ∀ (rem i : ℕ) (fg bg : list_cyclic_iterator) (g : RNG)
      (acc : List (String × String)),
      (∀ j, 0 ≤ g.reals j ∧ g.reals j < 1) →
      wavReplicaLoop room_vals ps iso wav durs 0 0 0 mnpm pfx keys rem i fg bg g acc =
        some (acc ++ (List.range' i rem).flatMap (fun ii =>
          keys.map (fun k => (GetNewId k pfx ii, NormalizeWavPipe (wav k))))) := by
  intro rem
  induction rem with
  | zero =>
      intro i fg bg g acc hg
      simp [wavReplicaLoop]
  | succ rem ih =>
      intro i fg bg g acc hg
      obtain ⟨g2, hrec, hre⟩ := wavRecLoop_all_zero room_vals ps iso wav durs mnpm pfx i
        hne hroomp hrir keys fg bg g acc hg
      have hg2 : ∀ j, 0 ≤ g2.reals j ∧ g2.reals j < 1 := by rw [hre]; exact hg
      simp only [wavReplicaLoop, hrec]
      rw [ih (i + 1) fg bg g2 _ hg2]
      simp [List.range', List.append_assoc]

/-- C4 (amended): with reverberate-speech probability 0 and both
noise-addition probabilities 0, every rendered output stored in the output
mapping is the recording's original signal reference after the source's
pipe normalization of lines 273-275: unchanged when the reference is
already a pipeline (more than one whitespace token), and wrapped as
`cat <reference> |` when it is a bare single-token file reference. -/
theorem rendered_output_identity_amended (wav_keys : List String)
    (wav : String → String) (durs : String → ℚ) (room_vals : List Room)
    (ps iso : List Noise) (fg_arr bg_arr : List ℚ) (num_replicas : ℕ)
    (pfx : Option String) (mnpm : ℤ) (g : RNG)
    (hg : ∀ j, 0 ≤ g.reals j ∧ g.reals j < 1)
    (hne : room_vals ≠ [])
    (hroomp : ∀ room ∈ room_vals, 0 ≤ room.probability)
    (hrir : ∀ room ∈ room_vals, room.rir_list ≠ [] ∧
      ∀ r ∈ room.rir_list, 0 ≤ r.probability) :
    GenerateReverberatedWavScp wav_keys wav durs room_vals ps iso fg_arr bg_arr
      num_replicas pfx 0 0 0 mnpm g =
      some ((List.range num_replicas).flatMap (fun i =>
        (List.insertionSort (fun a b => a ≤ b) wav_keys).map
          (fun k => (GetNewId k pfx i, NormalizeWavPipe (wav k))))) := by
  have hgb : ∀ j, 0 ≤ (pyShuffle bg_arr (pyShuffle fg_arr g).2).2.reals j ∧
      (pyShuffle bg_arr (pyShuffle fg_arr g).2).2.reals j < 1 := by
    unfold pyShuffle
    rw [(shuffleAux_rng (bg_arr.length - 1) bg_arr _).1,
      (shuffleAux_rng (fg_arr.length - 1) fg_arr g).1]
    exact hg
  simp only [GenerateReverberatedWavScp, list_cyclic_iterator.init]
  rw [wavReplicaLoop_all_zero room_vals ps iso wav durs mnpm pfx
    (List.insertionSort (fun a b => a ≤ b) wav_keys) hne hroomp hrir num_replicas 0
    ⟨(pyShuffle fg_arr g).1, 0⟩ ⟨(pyShuffle bg_arr (pyShuffle fg_arr g).2).1, 0⟩
    (pyShuffle bg_arr (pyShuffle fg_arr g).2).2 [] hgb]
  rw [List.range_eq_range']
  simp

theorem rendered_output_identity_amended_witness :
    GenerateReverberatedWavScp ["u1"] (fun _ => "cat x.wav |") (fun _ => 60) [wRoom] [] []
      [20] [20] 1 none 0 0 0 2 wRNG =
      some ((List.range 1).flatMap (fun i =>
        (List.insertionSort (fun a b => a ≤ b) ["u1"]).map
          (fun k => (GetNewId k none i, NormalizeWavPipe "cat x.wav |")))) := by
  refine rendered_output_identity_amended ["u1"] (fun _ => "cat x.wav |") (fun _ => 60)
    [wRoom] [] [] [20] [20] 1 none 2 wRNG
    (fun j => ⟨by norm_num [wRNG], by norm_num [wRNG]⟩) (by simp) ?_ ?_
  · intro room hroom
    rw [List.mem_singleton] at hroom
    subst hroom
    norm_num [wRoom]
  · intro room hroom
    rw [List.mem_singleton] at hroom
    subst hroom
    refine ⟨by simp [wRoom], ?_⟩
    intro r hr
    simp only [wRoom, List.mem_singleton] at hr
    subst hr
    norm_num

/-- C4 counterexample: with all probabilities 0 and a wav.scp entry that
is a bare single-token file reference (`a.wav`), the stored rendered
output is `cat a.wav |` — the pipe-normalized reference of lines 273-275 —
and not the original reference unchanged. -/
theorem rendered_output_cat_wrap_cex :
    GenerateReverberatedWavScp ["utt1"] (fun _ => "a.wav") (fun _ => 60) [wRoom] [] []
      [20, 10, 0] [20, 10, 0] 1 none 0 0 0 2 wRNG = some [("utt1", "cat a.wav |")] ∧
    "cat a.wav |" ≠ "a.wav" := by
  constructor
  · norm_num +decide [GenerateReverberatedWavScp, wavReplicaLoop, wavRecLoop,
      GenerateReverberationOpts, AddPointSourceNoise, PickItemWithProbability, pickLoop,
      randomReal, list_cyclic_iterator.init, pyShuffle, shuffleAux, swapAt2,
      FilterIsotropicNoiseList, NormalizeWavPipe, pySplit, pySplitAux, GetNewId,
      renderOpts, List.insertionSort, List.orderedInsert, wRNG, wRoom]
  · decide

/-- Raw RIR catalog records for the determinism analysis: two rooms. -/
def wRirRawA : RirRaw := ⟨"a", "ra", some 1, "a.wav"⟩

/-- Second raw RIR record, in a different room. -/
def wRirRawB : RirRaw := ⟨"b", "rb", some 0, "b.wav"⟩

/-- A raw point-source noise record. -/
def wNzP : NoiseRaw := ⟨"p1", "point-source", "background", none, some 1, "p.wav"⟩

/-- A raw isotropic noise record (linked to an RIR that is never picked). -/
def wNzI : NoiseRaw := ⟨"i1", "isotropic", "background", some "zzz", some 1, "i.wav"⟩

/-- C3 (code bug): two runs of the pipeline over identical catalogs,
corpus, configuration and random draws, differing only in the enumeration
order that CPython's `list(set(room_dict.values()))` happens to produce
(the identity order versus the reversed order — both enumerate the same
two-room set, and neither is fixed by the random seed, since CPython
orders the set by object identity hashes), select different rooms in
`PickItemWithProbability` and render different output mappings, so the
output is not byte-identical across runs with a fixed seed. -/
theorem Main_set_order_nondeterminism :
    MainModel [wRirRawA, wRirRawB] [wNzP, wNzI] id ["utt1"] (fun _ => "cat x.wav |")
        (fun _ => 60) [20] [20] 1 none 1 0 0 2 wRNG =
      some [("utt1", "cat x.wav | wav-reverberate --impulse-response=" ++ "a.wav" ++ "  - - |")] ∧
    MainModel [wRirRawA, wRirRawB] [wNzP, wNzI] List.reverse ["utt1"]
        (fun _ => "cat x.wav |") (fun _ => 60) [20] [20] 1 none 1 0 0 2 wRNG =
      some [("utt1", "cat x.wav | wav-reverberate --impulse-response=" ++ "b.wav" ++ "  - - |")] ∧
    MainModel [wRirRawA, wRirRawB] [wNzP, wNzI] id ["utt1"] (fun _ => "cat x.wav |")
        (fun _ => 60) [20] [20] 1 none 1 0 0 2 wRNG ≠
      MainModel [wRirRawA, wRirRawB] [wNzP, wNzI] List.reverse ["utt1"]
        (fun _ => "cat x.wav |") (fun _ => 60) [20] [20] 1 none 1 0 0 2 wRNG := by
  refine ⟨?_, ?_, ?_⟩
  · norm_num +decide [MainModel, ParseRirList, ParseNoiseList, SmoothProbabilityDistribution,
      blendWeight, applyRirWeights, applyNoiseWeights, MakeRoomDict, addRirToRooms,
      GenerateReverberatedWavScp, wavReplicaLoop, wavRecLoop, GenerateReverberationOpts,
      AddPointSourceNoise, PickItemWithProbability, pickLoop, randomReal,
      list_cyclic_iterator.init, pyShuffle, shuffleAux, swapAt2, FilterIsotropicNoiseList,
      NormalizeWavPipe, pySplit, pySplitAux, GetNewId, renderOpts, List.insertionSort,
      List.orderedInsert, wRNG, wRirRawA, wRirRawB, wNzP, wNzI]
  · norm_num +decide [MainModel, ParseRirList, ParseNoiseList, SmoothProbabilityDistribution,
      blendWeight, applyRirWeights, applyNoiseWeights, MakeRoomDict, addRirToRooms,
      GenerateReverberatedWavScp, wavReplicaLoop, wavRecLoop, GenerateReverberationOpts,
      AddPointSourceNoise, PickItemWithProbability, pickLoop, randomReal,
      list_cyclic_iterator.init, pyShuffle, shuffleAux, swapAt2, FilterIsotropicNoiseList,
      NormalizeWavPipe, pySplit, pySplitAux, GetNewId, renderOpts, List.insertionSort,
      List.orderedInsert, wRNG, wRirRawA, wRirRawB, wNzP, wNzI]
  · intro hcontra
    have h1 : MainModel [wRirRawA, wRirRawB] [wNzP, wNzI] id ["utt1"]
        (fun _ => "cat x.wav |") (fun _ => 60) [20] [20] 1 none 1 0 0 2 wRNG =
        some [("utt1", "cat x.wav | wav-reverberate --impulse-response=" ++ "a.wav" ++ "  - - |")] := by
      norm_num +decide [MainModel, ParseRirList, ParseNoiseList, SmoothProbabilityDistribution,
        blendWeight, applyRirWeights, applyNoiseWeights, MakeRoomDict, addRirToRooms,
        GenerateReverberatedWavScp, wavReplicaLoop, wavRecLoop, GenerateReverberationOpts,
        AddPointSourceNoise, PickItemWithProbability, pickLoop, randomReal,
        list_cyclic_iterator.init, pyShuffle, shuffleAux, swapAt2, FilterIsotropicNoiseList,
        NormalizeWavPipe, pySplit, pySplitAux, GetNewId, renderOpts, List.insertionSort,
        List.orderedInsert, wRNG, wRirRawA, wRirRawB, wNzP, wNzI]
    have h2 : MainModel [wRirRawA, wRirRawB] [wNzP, wNzI] List.reverse ["utt1"]
        (fun _ => "cat x.wav |") (fun _ => 60) [20] [20] 1 none 1 0 0 2 wRNG =
        some [("utt1", "cat x.wav | wav-reverberate --impulse-response=" ++ "b.wav" ++ "  - - |")] := by
      norm_num +decide [MainModel, ParseRirList, ParseNoiseList, SmoothProbabilityDistribution,
        blendWeight, applyRirWeights, applyNoiseWeights, MakeRoomDict, addRirToRooms,
        GenerateReverberatedWavScp, wavReplicaLoop, wavRecLoop, GenerateReverberationOpts,
        AddPointSourceNoise, PickItemWithProbability, pickLoop, randomReal,
        list_cyclic_iterator.init, pyShuffle, shuffleAux, swapAt2, FilterIsotropicNoiseList,
        NormalizeWavPipe, pySplit, pySplitAux, GetNewId, renderOpts, List.insertionSort,
        List.orderedInsert, wRNG, wRirRawA, wRirRawB, wNzP, wNzI]
    rw [h1, h2] at hcontra
    exact absurd hcontra (by decide)
